import Mathlib

/-!
Verification of the GreenGuard raw-log assembly pipeline: a shallow
of `greenguard/loader.py` (class `GreenGuardRawLoader`).

Modelling conventions:
* A pandas `Timestamp` is an `Int` (seconds since the Unix epoch).  Pandas
  timestamps are fixed-scale integers internally, so comparison is integer
  comparison and subtracting a `Timedelta` is integer subtraction.
* `pd.to_timedelta(window_size)` is modelled by the parsed duration in
  seconds (e.g. `"30d"` is `30 * 86400`).
* `strftime('%Y-%m-.csv')` is implemented via the standard civil-from-days
  calendar conversion on the timestamp's day number.
* Python string comparison (used by `_filter_by_filename`, `sorted`) is
  lexicographic comparison of code points, implemented by `pyLeB`.
* CSV parsing is abstracted: a raw readings file is given as its column
  names plus rows that already carry their parsed timestamp; the claims do
  not concern malformed-timestamp errors.
* Floating point `value`s are modelled as `Rat` (the claims only move
  values around, no arithmetic is performed on them).
-/

/-- Python `<=` on strings, as lexicographic comparison of code-point lists. -/
def pyLeChars : List Char → List Char → Bool
  | [], _ => true
  | _ :: _, [] => false
  | a :: as, b :: bs =>
    if a.toNat < b.toNat then true
    else if b.toNat < a.toNat then false
    else pyLeChars as bs

/-- Python `<=` on strings. -/
def pyLeB (a b : String) : Bool :=
  pyLeChars a.data b.data

/-- Propositional form of Python string `<=`. -/
def pyLeP (a b : String) : Prop :=
  pyLeB a b = true

instance : DecidableRel pyLeP :=
  fun a b => inferInstanceAs (Decidable (pyLeB a b = true))

/-- Convert a day number (days since 1970-01-01) to a
Gregorian `(year, month, day)` triple.  Standard Hinnant algorithm written
with floor division. -/
def civilFromDays (z0 : Int) : Int × Int × Int :=
  let z := z0 + 719468
  let era := Int.fdiv z 146097
  let doe := z - era * 146097
  let yoe := Int.fdiv (doe - Int.fdiv doe 1460 + Int.fdiv doe 36524 - Int.fdiv doe 146096) 365
  let y := yoe + era * 400
  let doy := doe - (365 * yoe + Int.fdiv yoe 4 - Int.fdiv yoe 100)
  let mp := Int.fdiv (5 * doy + 2) 153
  let d := doy - Int.fdiv (153 * mp + 2) 5 + 1
  let m := if mp < 10 then mp + 3 else mp - 9
  (if m ≤ 2 then y + 1 else y, m, d)

/-- Convert a Gregorian date to its day number
(days since 1970-01-01). -/
def daysFromCivil (y m d : Int) : Int :=
  let y2 := if m ≤ 2 then y - 1 else y
  let era := Int.fdiv y2 400
  let yoe := y2 - era * 400
  let mp := if m ≤ 2 then m + 9 else m - 3
  let doy := Int.fdiv (153 * mp + 2) 5 + d - 1
  let doe := yoe * 365 + Int.fdiv yoe 4 - Int.fdiv yoe 100 + doy
  era * 146097 + doe - 719468

/-- Build a timestamp (seconds since the epoch) from a civil date and time. -/
def tsOf (y m d hh mi ss : Int) : Int :=
  daysFromCivil y m d * 86400 + hh * 3600 + mi * 60 + ss

/-- Python `datetime.min` = 0001-01-01 00:00:00, used by `_get_times` when no
`window_size` is given. -/
def datetimeMin : Int :=
  tsOf 1 1 1 0 0 0

/-- Decimal digit character. -/
def digitChar (n : Nat) : Char :=
  Char.ofNat (48 + n % 10)

/-- Four-digit zero-padded decimal (strftime `%Y` for in-range years). -/
def pad4 (n : Nat) : String :=
  String.mk [digitChar (n / 1000), digitChar (n / 100), digitChar (n / 10), digitChar n]

/-- Two-digit zero-padded decimal (strftime `%m`). -/
def pad2 (n : Nat) : String :=
  String.mk [digitChar (n / 10), digitChar n]

/-- Model of `Timestamp.strftime('%Y-%m-.csv')` as used in `_filter_by_filename`. -/
def monthToken (t : Int) : String :=
  let c := civilFromDays (Int.fdiv t 86400)
  pad4 c.1.toNat ++ "-" ++ pad2 c.2.1.toNat ++ "-.csv"

/-! ## Data model -/

/-- One row of the `target_times` table, after `pd.to_datetime` has parsed the
`cutoff_time` column (the claims quantify over parsed tables). -/
structure TTRow where
  turbine_id : String
  cutoff_time : Int
  target : Rat
deriving DecidableEq

/-- One row of the DataFrame produced by `_get_times`
(columns `turbine_id`, `start`, `end`). -/
structure Window where
  turbine_id : String
  start : Int
  «end» : Int
deriving DecidableEq

/-- One row of a readings DataFrame after ingestion: `timestamp` (parsed),
`signal_id`, `value`, and the `turbine_id` tag that `_load_readings`
assigns (absent right after ingestion). -/
structure ReadingRow where
  timestamp : Int
  signal_id : String
  value : Rat
  turbine_id : Option String
deriving DecidableEq

/-- One row of a raw CSV readings file (`timestamp`, `signal`, `value`),
with the timestamp already parsed from its fixed textual format. -/
structure FileRow where
  timestamp : Int
  signal : String
  value : Rat
deriving DecidableEq

/-- A raw CSV readings file: its header (column names as read by
`pd.read_csv`) and its rows. -/
structure RawFile where
  cols : List String
  rows : List FileRow
deriving DecidableEq

/-- A readings DataFrame: tracked column names plus rows. -/
structure DF where
  cols : List String
  rows : List ReadingRow
deriving DecidableEq

/-- A turbine directory: filename/file pairs (`os.listdir` order arbitrary). -/
abbrev Dir := List (String × RawFile)

/-- The readings folder: one directory per turbine id. -/
abbrev FS := List (String × Dir)

/-- Errors a load call can raise. -/
inductive Err where
  /-- Raised as `ValueError` on duplicate target-times rows -/
  | duplicateTargetTimes
  /-- Error from `os.listdir` on a missing turbine directory -/
  | missingDirectory
  /-- Error from `X.turbine_id.iloc[0]` on an empty frame -/
  | emptyIndex
  /-- Error from `pd.concat([])`: no objects to concatenate -/
  | emptyConcat
  /-- dangling table reference (heap model) -/
  | missingTable
  /-- Error from `X.pop('target')` with no target column -/
  | missingTargetColumn
deriving DecidableEq

/-- Result of `GreenGuardRawLoader.load`. -/
structure LoadOut where
  X : List TTRow
  y : Option (List Rat)
  readings : DF
deriving DecidableEq

/-- Schema of the empty frame built by `_load_turbine_readings` when no file
is selected. -/
def canonicalColumns : List String :=
  ["timestamp", "signal_id", "value", "turbine_id"]

/-! ## Generic helpers -/

/-- Lower-case an ASCII character (Python `str.lower` restricted to ASCII,
which is all that column names use). -/
def lowerChar (c : Char) : Char :=
  if 65 ≤ c.toNat ∧ c.toNat ≤ 90 then Char.ofNat (c.toNat + 32) else c

/-- Lower-case a string. -/
def lowerStr (s : String) : String :=
  String.mk (s.data.map lowerChar)

/-- Directory lookup in the readings folder. -/
def lookupFS (fs : FS) (tid : String) : Option Dir :=
  (fs.find? (fun e => e.1 == tid)).map (·.2)

/-- Read a file of a directory by name (names are produced by `os.listdir`,
so the lookup always hits; the default is never reached). -/
def lookupFile (dir : Dir) (n : String) : RawFile :=
  match dir.find? (fun e => e.1 == n) with
  | some e => e.2
  | none => ⟨[], []⟩

/-- Model of `sorted(os.listdir(turbine_path))`. -/
def sortedNames (dir : Dir) : List String :=
  List.insertionSort pyLeP (dir.map Prod.fst)

/-- First-occurrence de-duplication worker. -/
def uniqueFirstGo (seen : List String) : List String → List String
  | [] => []
  | a :: as =>
    if a ∈ seen then uniqueFirstGo seen as
    else a :: uniqueFirstGo (a :: seen) as

/-- Model of `pandas.Series.unique`: distinct values in order of first appearance. -/
def uniqueFirst (l : List String) : List String :=
  uniqueFirstGo [] l

/-- The key `drop_duplicates(subset=['cutoff_time', 'turbine_id'])` uses. -/
def pairKey (r : TTRow) : String × Int :=
  (r.turbine_id, r.cutoff_time)

/-- Worker for `drop_duplicates` with `keep` set to first occurrence. -/
def dropDupPairsGo (seen : List (String × Int)) : List TTRow → List TTRow
  | [] => []
  | r :: rs =>
    if pairKey r ∈ seen then dropDupPairsGo seen rs
    else r :: dropDupPairsGo (pairKey r :: seen) rs

/-- Model of `X.drop_duplicates(subset=['cutoff_time', 'turbine_id'])`. -/
def drop_duplicates (X : List TTRow) : List TTRow :=
  dropDupPairsGo [] X

/-- Distinctness of the `(turbine_id, cutoff_time)` pairs of a table. -/
def pairsNodup (X : List TTRow) : Prop :=
  (X.map pairKey).Nodup

instance (X : List TTRow) : Decidable (pairsNodup X) :=
  inferInstanceAs (Decidable ((X.map pairKey).Nodup))

/-- Sequential error-propagating map (the per-turbine loop of
`_load_readings`: the first raised exception aborts the call). -/
def mapExcept (f : α → Except Err β) : List α → Except Err (List β)
  | [] => .ok []
  | a :: as =>
    match f a with
    | .error e => .error e
    | .ok b =>
      match mapExcept f as with
      | .error e => .error e
      | .ok bs => .ok (b :: bs)

/-- Column union in order of first appearance (`pd.concat` column handling). -/
def unionCols (acc cols : List String) : List String :=
  acc ++ cols.filter (fun c => decide (c ∉ acc))

/-- Model of `pd.concat`: rows appended in order, columns the ordered union. -/
def concatDF (dfs : List DF) : DF :=
  ⟨dfs.foldl (fun a df => unionCols a df.cols) [], (dfs.map DF.rows).flatten⟩

/-! ## The pipeline (`GreenGuardRawLoader`) -/

/-- Model of `_filter_by_filename`: keep a filename iff some window row `w` of `X`
satisfies `w.start.strftime('%Y-%m-.csv') <= filename <= w.end.strftime('%Y-%m-.csv')`
(Python string comparison); `(... & ...).any()` over the rows of `X`. -/
def filter_by_filename (X : List Window) (filenames : List String) : List String :=
  filenames.filter (fun f =>
    X.any (fun w => pyLeB (monthToken w.start) f && pyLeB f (monthToken w.«end»)))

/-- Model of `_load_readings_file`: lower-case the column names, rename `signal` to
`signal_id`, drop a stray `unnamed: 0` index column. -/
def load_readings_file (f : RawFile) : DF :=
  let cols := f.cols.map lowerStr
  let cols := cols.map (fun c => if c == "signal" then "signal_id" else c)
  let cols := if "unnamed: 0" ∈ cols then cols.filter (fun c => decide (c ≠ "unnamed: 0")) else cols
  ⟨cols, f.rows.map (fun r => ⟨r.timestamp, r.signal, r.value, none⟩)⟩

/-- Model of `_filter_by_signal`: if a signal list is given, keep rows whose
`signal_id` is in it; otherwise pass through. -/
def filter_by_signal (data : DF) (signals : Option (List String)) : DF :=
  match signals with
  | none => data
  | some s => ⟨data.cols, data.rows.filter (fun r => decide (r.signal_id ∈ s))⟩

/-- Does the timestamp fall in at least one `[start, end]` window of `X`?
(the `related |= (row.start <= timestamps) & (timestamps <= row.end)` mask). -/
def matchesAnyWindow (X : List Window) (t : Int) : Bool :=
  X.any (fun w => decide (w.start ≤ t) && decide (t ≤ w.«end»))

/-- Model of `_filter_by_timestamp`: keep rows whose timestamp is inside at least one
window; one mask applied to the table, so each surviving row is kept once. -/
def filter_by_timestamp (data : DF) (X : List Window) : DF :=
  ⟨data.cols, data.rows.filter (fun r => matchesAnyWindow X r.timestamp)⟩

/-- Model of `_load_turbine_readings`: select files by name, ingest and filter each,
concatenate; an empty selection gives an empty frame with the canonical
columns. -/
def load_turbine_readings (X : List Window) (signals : Option (List String)) (fs : FS) :
    Except Err DF :=
  match X with
  | [] => .error .emptyIndex
  | w :: _ =>
    match lookupFS fs w.turbine_id with
    | none => .error .missingDirectory
    | some dir =>
      let filenames := sortedNames dir
      let selected := filter_by_filename X filenames
      let dfs := selected.map (fun n =>
        filter_by_timestamp (filter_by_signal (load_readings_file (lookupFile dir n)) signals) X)
      if dfs.isEmpty then .ok ⟨canonicalColumns, []⟩ else .ok (concatDF dfs)

/-- The window start `_get_times` computes: `cutoff - window_size` if a
window size is given, `datetime.min` otherwise. -/
def startOf (window_size : Option Int) (cutoff : Int) : Int :=
  match window_size with
  | some d => cutoff - d
  | none => datetimeMin

/-- Model of `_get_times`: one `[start, end]` window per target row;
`start = cutoff - window_size`, or `datetime.min` with no window size. -/
def get_times (X : List TTRow) (window_size : Option Int) : List Window :=
  X.map (fun r => ⟨r.turbine_id, startOf window_size r.cutoff_time, r.cutoff_time⟩)

/-- Model of `sorted(X.turbine_id.unique())`: the iteration order of the per-turbine
loop in `_load_readings`. -/
def sortedIds (X : List TTRow) : List String :=
  List.insertionSort pyLeP (uniqueFirst (X.map TTRow.turbine_id))

/-- One iteration of the `_load_readings` loop: slice the windows of one
turbine, load its readings, tag them with the turbine id. -/
def entityLoad (W : List Window) (signals : Option (List String)) (fs : FS) (tid : String) :
    Except Err DF :=
  match load_turbine_readings (W.filter (fun w => w.turbine_id == tid)) signals fs with
  | .error e => .error e
  | .ok df =>
    .ok ⟨if "turbine_id" ∈ df.cols then df.cols else df.cols ++ ["turbine_id"],
         df.rows.map (fun r => ⟨r.timestamp, r.signal_id, r.value, some tid⟩)⟩

/-- Model of `_load_readings`: loop over the distinct turbine ids in sorted order and
concatenate (`pd.concat` raises on an empty list of frames). -/
def load_readings (X : List TTRow) (signals : Option (List String))
    (window_size : Option Int) (fs : FS) : Except Err DF :=
  let W := get_times X window_size
  match mapExcept (entityLoad W signals fs) (sortedIds X) with
  | .error e => .error e
  | .ok dfs => if dfs.isEmpty then .error .emptyConcat else .ok (concatDF dfs)

/-- Model of `GreenGuardRawLoader.load` on an in-memory `target_times` table whose
`cutoff_time` column is parsed: validate duplicates, load the readings,
optionally split the target column off. -/
def load (target_times : List TTRow) (signals : Option (List String))
    (window_size : Option Int) (return_target : Bool) (fs : FS) : Except Err LoadOut :=
  let X := target_times
  if X.length ≠ (drop_duplicates X).length then .error .duplicateTargetTimes
  else
    match load_readings X signals window_size fs with
    | .error e => .error e
    | .ok readings =>
      if return_target then .ok ⟨X, some (X.map TTRow.target), readings⟩
      else .ok ⟨X, none, readings⟩

instance instDecidableEqExcept {ε α : Type} [DecidableEq ε] [DecidableEq α] :
    DecidableEq (Except ε α) :=
  fun a b =>
    match a, b with
    | .error e, .error f =>
      match decEq e f with
      | isTrue h => isTrue (congrArg Except.error h)
      | isFalse h => isFalse (fun hh => h (by cases hh; rfl))
    | .ok x, .ok y =>
      match decEq x y with
      | isTrue h => isTrue (congrArg Except.ok h)
      | isFalse h => isFalse (fun hh => h (by cases hh; rfl))
    | .error _, .ok _ => isFalse (fun hh => Except.noConfusion hh)
    | .ok _, .error _ => isFalse (fun hh => Except.noConfusion hh)

/-! ## Concrete inputs (scratch) -/

def fileFeb : RawFile :=
  ⟨["timestamp", "signal", "value"],
   [⟨tsOf 2020 2 10 0 0 0, "S1", mkRat 16 5⟩, ⟨tsOf 2020 1 1 0 0 0, "S1", mkRat 99 10⟩]⟩

def fsC2 : FS := [("T1", [("2020-02.csv", fileFeb)])]

def ttC2 : TTRow := ⟨"T1", tsOf 2020 2 15 0 0 0, 0⟩

def wC2 : Window := ⟨"T1", tsOf 2020 2 15 0 0 0 - 30 * 86400, tsOf 2020 2 15 0 0 0⟩


/-! ## Heap model of the in-memory `target_times` DataFrame (frame effects)

`load` receives the caller's DataFrame by reference and immediately does
`X = target_times.copy()`; the subsequent column assignment and
`X.pop('target')` mutate `X` in place.  To state the frame claim we model
DataFrame references explicitly: a heap maps references to table values,
`copy` allocates a fresh reference, and the in-place operations update the
heap at the reference they are applied to. -/

/-- The caller-visible `target_times` table: its rows and whether the
`target` column is (still) present. -/
structure TTable where
  rows : List TTRow
  hasTargetColumn : Bool
deriving DecidableEq

abbrev Heap := List (Nat × TTable)

def lookupH (h : Heap) (r : Nat) : Option TTable :=
  (h.find? (fun e => e.1 == r)).map (·.2)

/-- In-place update (or allocation) of the table at reference `r`. -/
def setH (h : Heap) (r : Nat) (t : TTable) : Heap :=
  (r, t) :: h.filter (fun e => decide (e.1 ≠ r))

/-- A reference not yet used by the heap (allocation for `.copy()`). -/
def freshRef (h : Heap) : Nat :=
  (h.map Prod.fst).foldr Nat.max 0 + 1

/-- Model of the assignment `X['cutoff_time'] = pd.to_datetime(...)` as a table
transformation: the column is rewritten row by row (on an already parsed
table the parse is value-preserving, but the write still happens). -/
def parseCutoffs (t : TTable) : TTable :=
  ⟨t.rows.map (fun r => ⟨r.turbine_id, r.cutoff_time, r.target⟩), t.hasTargetColumn⟩

/-- Model of `y = X.pop('target')`: remove the target column, returning it. -/
def popTarget (t : TTable) : Option (List Rat × TTable) :=
  if t.hasTargetColumn then some (t.rows.map TTRow.target, ⟨t.rows, false⟩) else none

structure LoadHOut where
  X : TTable
  y : Option (List Rat)
  readings : DF
deriving DecidableEq

/-- Model of `GreenGuardRawLoader.load` on an in-memory DataFrame, with the heap made
explicit: `target_times` is the reference `ref`; the copy, the cutoff-column
assignment, the duplicate validation and the `pop` all act on the fresh
internal reference. -/
def loadH (h : Heap) (ref : Nat) (signals : Option (List String))
    (window_size : Option Int) (return_target : Bool) (fs : FS) :
    Except Err LoadHOut × Heap :=
  match lookupH h ref with
  | none => (.error .missingTable, h)
  | some t =>
    let xr := freshRef h
    let h1 := setH h xr t
    let h2 := setH h1 xr (parseCutoffs t)
    let X := (lookupH h2 xr).getD ⟨[], false⟩
    if X.rows.length ≠ (drop_duplicates X.rows).length then (.error .duplicateTargetTimes, h2)
    else
      match load_readings X.rows signals window_size fs with
      | .error e => (.error e, h2)
      | .ok readings =>
        if return_target then
          match popTarget X with
          | none => (.error .missingTargetColumn, h2)
          | some yX =>
            let h3 := setH h2 xr yX.2
            (.ok ⟨yX.2, some yX.1, readings⟩, h3)
        else (.ok ⟨X, none, readings⟩, h2)

/-! ## Further concrete inputs -/

def fileJan : RawFile :=
  ⟨["timestamp", "signal", "value"], [⟨tsOf 2020 1 1 0 0 0, "S1", mkRat 99 10⟩]⟩

def fsC8 : FS := [("T1", [("2020-01.csv", fileJan)])]

def fsA : FS := [("T1", [])]

def wJan : Window := ⟨"T1", tsOf 2020 1 1 0 0 0, tsOf 2020 1 31 0 0 0⟩

def wJun : Window := ⟨"T1", tsOf 2020 6 1 0 0 0, tsOf 2020 6 30 0 0 0⟩

def dfW : DF :=
  ⟨["timestamp", "signal_id", "value"], [⟨tsOf 2020 1 16 0 0 0, "S1", 1, none⟩]⟩

def t0c : TTable := ⟨[ttC2], true⟩

/-! ## Order-theoretic facts about the Python string order -/

theorem pyLeChars_total : ∀ a b, pyLeChars a b = true ∨ pyLeChars b a = true := by
  intro a
  induction a with
  | nil => intro b; left; rfl
  | cons x xs ih =>
    intro b
    cases b with
    | nil => right; rfl
    | cons y ys =>
      by_cases h1 : x.toNat < y.toNat
      · left; simp [pyLeChars, h1]
      · by_cases h2 : y.toNat < x.toNat
        · right; simp [pyLeChars, h2]
        · rcases ih ys with h | h
          · left; simp [pyLeChars, h1, h2, h]
          · right; simp [pyLeChars, h1, h2, h]

theorem pyLeChars_trans :
    ∀ a b c, pyLeChars a b = true → pyLeChars b c = true → pyLeChars a c = true := by
  intro a
  induction a with
  | nil => intro b c _ _; rfl
  | cons x xs ih =>
    intro b c hab hbc
    cases b with
    | nil => simp [pyLeChars] at hab
    | cons y ys =>
      cases c with
      | nil => simp [pyLeChars] at hbc
      | cons z zs =>
        simp only [pyLeChars] at hab hbc ⊢
        by_cases hxy : x.toNat < y.toNat
        · by_cases hyz : y.toNat < z.toNat
          · simp [show x.toNat < z.toNat from Nat.lt_trans hxy hyz]
          · by_cases hzy : z.toNat < y.toNat
            · simp [hyz, hzy] at hbc
            · have : y.toNat = z.toNat := Nat.le_antisymm (Nat.le_of_not_lt hzy) (Nat.le_of_not_lt hyz)
              simp [show x.toNat < z.toNat from this ▸ hxy]
        · by_cases hyx : y.toNat < x.toNat
          · simp [hxy, hyx] at hab
          · have hxyeq : x.toNat = y.toNat := Nat.le_antisymm (Nat.le_of_not_lt hyx) (Nat.le_of_not_lt hxy)
            simp only [hxy, hyx, if_neg, ite_false] at hab
            by_cases hyz : y.toNat < z.toNat
            · simp [hxyeq ▸ hyz]
            · by_cases hzy : z.toNat < y.toNat
              · simp [hyz, hzy] at hbc
              · simp only [hyz, hzy, if_neg, ite_false] at hbc
                have hxz : ¬ x.toNat < z.toNat := by omega
                have hzx : ¬ z.toNat < x.toNat := by omega
                simp [hxz, hzx, ih ys zs hab hbc]

instance : IsTotal String pyLeP :=
  ⟨fun a b => pyLeChars_total a.data b.data⟩

instance : IsTrans String pyLeP :=
  ⟨fun a b c => pyLeChars_trans a.data b.data c.data⟩

/-! ## Claim theorems -/

/-- Claim C1 (code bug): the File Selector is not conservative.  With the
single window `[2020-01-16, 2020-02-15]` the file `"2020-02.csv"` contains a
row (2020-02-10) inside the window, so its true row-level date range
intersects the window, yet `_filter_by_filename` yields nothing: the
filename compares lexicographically greater than the end token
`"2020-02-.csv"` because `'.' > '-'`. -/
theorem c1_file_selector_false_negative :
    get_times [ttC2] (some (30 * 86400)) = [wC2] ∧
    (∃ r ∈ fileFeb.rows, wC2.start ≤ r.timestamp ∧ r.timestamp ≤ wC2.«end») ∧
    filter_by_filename [wC2] ["2020-02.csv"] = [] := by decide

/-- Claim C2 (code bug): the spec's concrete scenario.  Target event
(`"T1"`, cutoff 2020-02-15), lookback 30 days, one file `"T1/2020-02.csv"`
with rows at 2020-02-10 and 2020-01-01.  The 2020-02-10 row lies inside the
window, but the load call returns an empty readings table because the file
is skipped by `_filter_by_filename`. -/
theorem c2_scenario_readings_empty :
    (wC2.start ≤ tsOf 2020 2 10 0 0 0 ∧ tsOf 2020 2 10 0 0 0 ≤ wC2.«end») ∧
    load [ttC2] none (some (30 * 86400)) false fsC2 =
      .ok ⟨[ttC2], none, ⟨canonicalColumns, []⟩⟩ := by decide

/-- Claim C4, counterexample: with two windows (January and June 2020) the
file `"2020-03.csv"` lies between the minimum encoded start and the maximum
encoded end, yet `_filter_by_filename` does not select it — the code tests
each window separately (`.any()`), not the single min/max span. -/
theorem c4_span_counterexample :
    monthToken wJan.start = "2020-01-.csv" ∧
    monthToken wJun.«end» = "2020-06-.csv" ∧
    pyLeP (monthToken wJan.start) (monthToken wJun.start) ∧
    pyLeP (monthToken wJan.«end») (monthToken wJun.«end») ∧
    pyLeP (monthToken wJan.start) "2020-03.csv" ∧
    pyLeP "2020-03.csv" (monthToken wJun.«end») ∧
    filter_by_filename [wJan, wJun] ["2020-03.csv"] = [] := by decide

/-- Claim C4, amended: a filename is selected iff it lies, in Python string
order, between the encoded start token and the encoded end token of at
least one of the entity's windows (a union of per-window ranges, not the
single min/max span). -/
theorem c4_amended_selection_characterization (f : String) (X : List Window)
    (filenames : List String) :
    f ∈ filter_by_filename X filenames ↔
      f ∈ filenames ∧
        ∃ w ∈ X, pyLeP (monthToken w.start) f ∧ pyLeP f (monthToken w.«end») := by
  simp [filter_by_filename, List.mem_filter, List.any_eq_true, pyLeP, Bool.and_eq_true]

/-- Witness for the amended C4 at a concrete input. -/
theorem c4_amended_selection_characterization_witness :
    "2020-01.csv" ∈ filter_by_filename [wC2] ["2020-01.csv"] :=
  (c4_amended_selection_characterization "2020-01.csv" [wC2] ["2020-01.csv"]).mpr
    ⟨by decide, wC2, by decide, by decide, by decide⟩

theorem count_filter_pos {p : ReadingRow → Bool} {r : ReadingRow}
    (l : List ReadingRow) (h : p r = true) :
    (l.filter p).count r = l.count r := by
  induction l with
  | nil => rfl
  | cons a as ih =>
    rw [List.filter_cons]
    by_cases har : a = r
    · subst har
      simp [h, List.count_cons, ih]
    · cases hpa : p a <;>
        simp [List.count_cons, har, ih, beq_iff_eq]

theorem count_filter_neg {p : ReadingRow → Bool} {r : ReadingRow}
    (l : List ReadingRow) (h : p r = false) :
    (l.filter p).count r = 0 := by
  rw [List.count_eq_zero]
  intro hmem
  have hpr := (List.mem_filter.mp hmem).2
  rw [h] at hpr
  exact Bool.noConfusion hpr

/-- Claim C6: a row survives `_filter_by_timestamp` iff its timestamp lies in
at least one `[start, end]` window, and its multiplicity is preserved (a row
inside several overlapping windows is kept once, never duplicated). -/
theorem c6_window_filter_membership_count (data : DF) (X : List Window) (r : ReadingRow) :
    (matchesAnyWindow X r.timestamp = true ↔
      ∃ w ∈ X, w.start ≤ r.timestamp ∧ r.timestamp ≤ w.«end») ∧
    (filter_by_timestamp data X).rows.count r =
      (if matchesAnyWindow X r.timestamp then data.rows.count r else 0) := by
  constructor
  · simp [matchesAnyWindow, List.any_eq_true]
  · cases h : matchesAnyWindow X r.timestamp
    · simp only [filter_by_timestamp, if_neg]
      exact (count_filter_neg data.rows h).trans (by simp)
    · simp only [filter_by_timestamp, if_pos]
      exact (count_filter_pos data.rows h).trans (by simp)

/-- Witness for C6 at a concrete input: the single matching row is counted
exactly once after filtering through two overlapping windows. -/
theorem c6_window_filter_membership_count_witness :
    (filter_by_timestamp dfW [wC2, wC2]).rows.count ⟨tsOf 2020 1 16 0 0 0, "S1", 1, none⟩ = 1 :=
  (c6_window_filter_membership_count dfW [wC2, wC2] ⟨tsOf 2020 1 16 0 0 0, "S1", 1, none⟩).2.trans
    (by decide)

/-- Claim C7: the Window Filter is inclusive at both endpoints — a reading
timestamped exactly at a (well-formed) window's start or end is retained. -/
theorem c7_inclusive_endpoints (data : DF) (X : List Window) (w : Window) (r : ReadingRow)
    (hw : w ∈ X) (hr : r ∈ data.rows) (hwf : w.start ≤ w.«end»)
    (hts : r.timestamp = w.start ∨ r.timestamp = w.«end») :
    r ∈ (filter_by_timestamp data X).rows := by
  refine List.mem_filter.mpr ⟨hr, ?_⟩
  refine List.any_eq_true.mpr ⟨w, hw, ?_⟩
  rcases hts with h | h <;> simp [h, hwf]

/-- Witness for C7: a reading timestamped exactly at the window start is
retained. -/
theorem c7_inclusive_endpoints_witness :
    (⟨tsOf 2020 1 16 0 0 0, "S1", 1, none⟩ : ReadingRow) ∈ (filter_by_timestamp dfW [wC2]).rows :=
  c7_inclusive_endpoints dfW [wC2] wC2 ⟨tsOf 2020 1 16 0 0 0, "S1", 1, none⟩
    (by decide) (by decide) (by decide) (Or.inl (by decide))

/-- Claim C5: `_get_times` produces one window per target row in the same
order; `end` is the cutoff, `start` is `cutoff - lookback` (or
`datetime.min` without a lookback), and — for a nonnegative lookback and
representable cutoffs — `start ≤ end`. -/
theorem c5_time_window_resolver (X : List TTRow) (ws : Option Int)
    (hws : ∀ d, ws = some d → 0 ≤ d)
    (hmin : ws = none → ∀ r ∈ X, datetimeMin ≤ r.cutoff_time) :
    (get_times X ws).length = X.length ∧
    ∀ (i : Nat) (r : TTRow), X[i]? = some r →
      (get_times X ws)[i]? =
        some ⟨r.turbine_id, startOf ws r.cutoff_time, r.cutoff_time⟩ ∧
      startOf ws r.cutoff_time ≤ r.cutoff_time := by
  refine ⟨by simp [get_times], ?_⟩
  intro i r hir
  constructor
  · simp [get_times, List.getElem?_map, hir]
  · cases ws with
    | some d =>
      have hd := hws d rfl
      simp only [startOf]
      omega
    | none =>
      exact hmin rfl r (List.getElem?_mem hir)

/-- Witness for C5 at the concrete scenario input. -/
theorem c5_time_window_resolver_witness :
    (get_times [ttC2] (some (30 * 86400))).length = [ttC2].length ∧
    (get_times [ttC2] (some (30 * 86400)))[0]? = some wC2 := by
  have h := c5_time_window_resolver [ttC2] (some (30 * 86400))
    (fun d hd => by injection hd with hd2; omega) (fun hn => nomatch hn)
  exact ⟨h.1, ((h.2 0 ttC2 (by decide)).1).trans (by decide)⟩

theorem flatten_eq_nil_of_all_nil {α : Type} {l : List (List α)}
    (h : ∀ x ∈ l, x = []) : l.flatten = [] := by
  induction l with
  | nil => rfl
  | cons a as ih =>
    rw [List.flatten_cons, h a (List.mem_cons_self a as),
      ih (fun x hx => h x (List.mem_cons_of_mem a hx))]
    rfl

/-- Claim C8, counterexample: an entity whose one selected file filters down
to zero rows yields an empty table whose schema is the ingested files'
normalized schema, not the canonical four-column schema (`turbine_id` is
only attached later, by `_load_readings`). -/
theorem c8_all_filtered_schema_cex :
    load_turbine_readings [wC2] none fsC8 =
      .ok ⟨["timestamp", "signal_id", "value"], []⟩ ∧
    (["timestamp", "signal_id", "value"] : List String) ≠ canonicalColumns := by decide

/-- Claim C8, amended: for an entity with a readings directory,
`_load_turbine_readings` never errors on an empty result: with zero selected
files it returns the empty table with the canonical schema, and when every
selected file filters down to zero rows it returns an empty table (with the
files' schema). -/
theorem c8_amended_empty_result (X : List Window) (signals : Option (List String))
    (fs : FS) (w : Window) (rest : List Window) (dir : Dir)
    (hX : X = w :: rest) (hdir : lookupFS fs w.turbine_id = some dir) :
    (filter_by_filename X (sortedNames dir) = [] →
      load_turbine_readings X signals fs = .ok ⟨canonicalColumns, []⟩) ∧
    ((∀ n ∈ filter_by_filename X (sortedNames dir),
        (filter_by_timestamp (filter_by_signal (load_readings_file (lookupFile dir n))
          signals) X).rows = []) →
      ∃ cols, load_turbine_readings X signals fs = .ok ⟨cols, []⟩) := by
  subst hX
  constructor
  · intro hsel
    simp [load_turbine_readings, hdir, hsel]
  · intro hall
    simp only [load_turbine_readings, hdir]
    cases hsel : filter_by_filename (w :: rest) (sortedNames dir) with
    | nil => exact ⟨canonicalColumns, by simp⟩
    | cons n ns =>
      rw [hsel] at hall
      refine ⟨(concatDF ((n :: ns).map (fun n =>
        filter_by_timestamp (filter_by_signal (load_readings_file (lookupFile dir n))
          signals) (w :: rest)))).cols, ?_⟩
      have hrows : (concatDF ((n :: ns).map (fun n =>
          filter_by_timestamp (filter_by_signal (load_readings_file (lookupFile dir n))
            signals) (w :: rest)))).rows = [] := by
        show (List.map DF.rows _).flatten = []
        refine flatten_eq_nil_of_all_nil ?_
        intro x hx
        rw [List.map_map] at hx
        obtain ⟨m, hm, hxm⟩ := List.mem_map.mp hx
        rw [← hxm]
        exact hall m hm
      simp only [List.map_cons] at hrows
      simp only [List.isEmpty, List.map]
      exact congrArg Except.ok (by rw [← hrows])

/-- Witness for the amended C8: zero selected files gives the canonical
empty table; a selection that filters to zero rows gives an empty table. -/
theorem c8_amended_empty_result_witness :
    load_turbine_readings [wC2] none fsA = .ok ⟨canonicalColumns, []⟩ ∧
    (∃ cols, load_turbine_readings [wC2] none fsC8 = .ok ⟨cols, []⟩) :=
  ⟨(c8_amended_empty_result [wC2] none fsA wC2 [] [] rfl (by decide)).1 (by decide),
   (c8_amended_empty_result [wC2] none fsC8 wC2 [] [("2020-01.csv", fileJan)] rfl
     (by decide)).2 (by decide)⟩

theorem dropDupPairsGo_length_le (l : List TTRow) :
    ∀ seen, (dropDupPairsGo seen l).length ≤ l.length := by
  induction l with
  | nil => intro seen; exact Nat.le_refl 0
  | cons r rs ih =>
    intro seen
    by_cases h : pairKey r ∈ seen
    · rw [dropDupPairsGo, if_pos h]
      exact Nat.le_succ_of_le (ih seen)
    · rw [dropDupPairsGo, if_neg h]
      exact Nat.succ_le_succ (ih _)

theorem dropDupPairsGo_eq_self (l : List TTRow) :
    ∀ seen, (l.map pairKey).Nodup → (∀ k ∈ l.map pairKey, k ∉ seen) →
      dropDupPairsGo seen l = l := by
  induction l with
  | nil => intro seen _ _; rfl
  | cons r rs ih =>
    intro seen hnd hdisj
    have hk : pairKey r ∉ seen := hdisj (pairKey r) (List.mem_cons_self _ _)
    rw [dropDupPairsGo, if_neg hk]
    have hnd' := (List.nodup_cons.mp hnd)
    refine congrArg (r :: ·) (ih _ hnd'.2 ?_)
    intro k hkmem
    rw [List.mem_cons]
    rintro (hkr | hks)
    · exact hnd'.1 (hkr ▸ hkmem)
    · exact hdisj k (List.mem_cons_of_mem _ hkmem) hks

theorem nodup_of_dropDupPairsGo_length (l : List TTRow) :
    ∀ seen, (dropDupPairsGo seen l).length = l.length →
      (l.map pairKey).Nodup ∧ ∀ k ∈ l.map pairKey, k ∉ seen := by
  induction l with
  | nil => intro seen _; exact ⟨List.nodup_nil, by simp⟩
  | cons r rs ih =>
    intro seen hlen
    by_cases h : pairKey r ∈ seen
    · rw [dropDupPairsGo, if_pos h] at hlen
      have := dropDupPairsGo_length_le rs seen
      simp [List.length_cons] at hlen
      omega
    · rw [dropDupPairsGo, if_neg h, List.length_cons, List.length_cons] at hlen
      obtain ⟨hnd, hdisj⟩ := ih _ (Nat.succ_injective hlen)
      refine ⟨List.nodup_cons.mpr ⟨?_, hnd⟩, ?_⟩
      · intro hmem
        exact hdisj _ hmem (List.mem_cons_self _ _)
      · intro k hkmem
        rw [List.map_cons, List.mem_cons] at hkmem
        rcases hkmem with hkr | hks
        · exact hkr ▸ h
        · intro hkseen
          exact hdisj k hks (List.mem_cons_of_mem _ hkseen)

/-- The duplicate check of `load` passes exactly on tables with distinct
`(turbine_id, cutoff_time)` pairs. -/
theorem drop_duplicates_length_iff (X : List TTRow) :
    (drop_duplicates X).length = X.length ↔ pairsNodup X := by
  constructor
  · intro h
    exact (nodup_of_dropDupPairsGo_length X [] h).1
  · intro h
    rw [drop_duplicates, dropDupPairsGo_eq_self X [] h (by simp)]

theorem mem_uniqueFirstGo (x : String) (l : List String) :
    ∀ seen, x ∈ uniqueFirstGo seen l ↔ (x ∈ l ∧ x ∉ seen) := by
  induction l with
  | nil => intro seen; simp [uniqueFirstGo]
  | cons a as ih =>
    intro seen
    by_cases h : a ∈ seen
    · rw [uniqueFirstGo, if_pos h, ih]
      constructor
      · rintro ⟨hx, hns⟩
        exact ⟨List.mem_cons_of_mem a hx, hns⟩
      · rintro ⟨hx, hns⟩
        rcases List.mem_cons.mp hx with rfl | hx'
        · exact absurd h hns
        · exact ⟨hx', hns⟩
    · rw [uniqueFirstGo, if_neg h]
      constructor
      · intro hx
        rcases List.mem_cons.mp hx with rfl | hx'
        · exact ⟨List.mem_cons_self _ _, h⟩
        · obtain ⟨hxas, hxns⟩ := (ih _).mp hx'
          exact ⟨List.mem_cons_of_mem a hxas,
            fun hs => hxns (List.mem_cons_of_mem a hs)⟩
      · rintro ⟨hx, hns⟩
        rcases List.mem_cons.mp hx with rfl | hx'
        · exact List.mem_cons_self _ _
        · by_cases hxa : x = a
          · exact hxa ▸ List.mem_cons_self _ _
          · exact List.mem_cons_of_mem _ ((ih _).mpr
              ⟨hx', by rw [List.mem_cons]; rintro (h1 | h2); exact hxa h1; exact hns h2⟩)

theorem nodup_uniqueFirstGo (l : List String) :
    ∀ seen, (uniqueFirstGo seen l).Nodup := by
  induction l with
  | nil => intro seen; exact List.nodup_nil
  | cons a as ih =>
    intro seen
    by_cases h : a ∈ seen
    · rw [uniqueFirstGo, if_pos h]; exact ih seen
    · rw [uniqueFirstGo, if_neg h]
      refine List.nodup_cons.mpr ⟨?_, ih _⟩
      intro hmem
      exact ((mem_uniqueFirstGo a as _).mp hmem).2 (List.mem_cons_self a seen)

theorem mem_sortedIds (x : String) (X : List TTRow) :
    x ∈ sortedIds X ↔ x ∈ X.map TTRow.turbine_id := by
  rw [sortedIds, (List.perm_insertionSort pyLeP _).mem_iff, uniqueFirst,
    mem_uniqueFirstGo]
  simp

theorem nodup_sortedIds (X : List TTRow) : (sortedIds X).Nodup :=
  (List.perm_insertionSort pyLeP _).nodup_iff.mpr (nodup_uniqueFirstGo _ [])

theorem sorted_sortedIds (X : List TTRow) : (sortedIds X).Sorted pyLeP :=
  List.sorted_insertionSort pyLeP _

theorem mapExcept_ok_of_all {α β : Type} {f : α → Except Err β} {l : List α}
    (h : ∀ a ∈ l, ∃ b, f a = .ok b) :
    ∃ bs, mapExcept f l = .ok bs ∧ bs.length = l.length := by
  induction l with
  | nil => exact ⟨[], rfl, rfl⟩
  | cons a as ih =>
    obtain ⟨b, hb⟩ := h a (List.mem_cons_self a as)
    obtain ⟨bs, hbs, hlen⟩ := ih (fun x hx => h x (List.mem_cons_of_mem a hx))
    refine ⟨b :: bs, ?_, by simp [hlen]⟩
    rw [mapExcept, hb, hbs]

theorem load_turbine_readings_ok (w : Window) (rest : List Window)
    (signals : Option (List String)) (fs : FS) (dir : Dir)
    (hdir : lookupFS fs w.turbine_id = some dir) :
    ∃ df, load_turbine_readings (w :: rest) signals fs = .ok df := by
  simp only [load_turbine_readings, hdir]
  split
  · exact ⟨_, rfl⟩
  · exact ⟨_, rfl⟩

theorem entityLoad_ok (W : List Window) (signals : Option (List String)) (fs : FS)
    (tid : String) (hw : ∃ w ∈ W, w.turbine_id = tid)
    (hdir : (lookupFS fs tid).isSome) :
    ∃ df, entityLoad W signals fs tid = .ok df := by
  obtain ⟨w, hwW, hwt⟩ := hw
  have hmem : w ∈ W.filter (fun v => v.turbine_id == tid) :=
    List.mem_filter.mpr ⟨hwW, by simp [hwt]⟩
  cases hfil : W.filter (fun v => v.turbine_id == tid) with
  | nil => rw [hfil] at hmem; cases hmem
  | cons w0 ws0 =>
    have hw0 : w0.turbine_id = tid := by
      have hp := List.of_mem_filter (hfil ▸ List.mem_cons_self w0 ws0)
      exact beq_iff_eq.mp hp
    obtain ⟨dir, hdir'⟩ := Option.isSome_iff_exists.mp hdir
    obtain ⟨df, hdf⟩ := load_turbine_readings_ok w0 ws0 signals fs dir (hw0 ▸ hdir')
    rw [entityLoad, hfil, hdf]
    exact ⟨_, rfl⟩

/-- Claim C3, counterexample: the empty target-event table has no duplicate
`(entity, cutoff)` pair, yet `load` raises — `pd.concat` is called on an
empty list of per-turbine frames. -/
theorem c3_empty_table_concat_error :
    pairsNodup [] ∧ load [] none none true fsC2 = .error .emptyConcat := by
  constructor
  · exact List.nodup_nil
  · rfl

/-- Claim C3, amended: for every nonempty target-event table with distinct
`(entity, cutoff)` pairs whose entities all have readings directories, the
load call succeeds; for every table containing a duplicated pair it fails
with the duplicate-validation error (`load` is a function of the table and
the file system, so the outcome is deterministic, and the hypotheses are
invariant under row reordering). -/
theorem c3_amended_duplicates_validation (X : List TTRow)
    (signals : Option (List String)) (ws : Option Int) (rt : Bool) (fs : FS) :
    (X ≠ [] → pairsNodup X →
      (∀ tid ∈ X.map TTRow.turbine_id, (lookupFS fs tid).isSome) →
      ∃ out, load X signals ws rt fs = .ok out) ∧
    (¬ pairsNodup X → load X signals ws rt fs = .error .duplicateTargetTimes) := by
  constructor
  · intro hne hnd hdirs
    have hlen : X.length = (drop_duplicates X).length :=
      ((drop_duplicates_length_iff X).mpr hnd).symm
    have hok : ∀ tid ∈ sortedIds X, ∃ df, entityLoad (get_times X ws) signals fs tid = .ok df := by
      intro tid htid
      have htid' : tid ∈ X.map TTRow.turbine_id := (mem_sortedIds tid X).mp htid
      obtain ⟨r, hr, hrt⟩ := List.mem_map.mp htid'
      refine entityLoad_ok _ signals fs tid ⟨⟨r.turbine_id, startOf ws r.cutoff_time, r.cutoff_time⟩, ?_, hrt⟩ (hdirs tid htid')
      exact List.mem_map.mpr ⟨r, hr, rfl⟩
    obtain ⟨dfs, hdfs, hdfslen⟩ := mapExcept_ok_of_all hok
    have hids : sortedIds X ≠ [] := by
      cases X with
      | nil => exact absurd rfl hne
      | cons r rs =>
        intro hnil
        have : r.turbine_id ∈ sortedIds (r :: rs) :=
          (mem_sortedIds _ _).mpr (List.mem_map.mpr ⟨r, List.mem_cons_self r rs, rfl⟩)
        rw [hnil] at this
        cases this
    have hdfsne : dfs ≠ [] := by
      intro hnil
      rw [hnil] at hdfslen
      exact hids (List.eq_nil_of_length_eq_zero hdfslen.symm)
    have hempty : dfs.isEmpty = false := by
      cases dfs
      · exact absurd rfl hdfsne
      · rfl
    have hreadings : load_readings X signals ws fs = .ok (concatDF dfs) := by
      simp only [load_readings, hdfs, hempty]
      rfl
    rw [load, if_neg (by omega)]
    rw [hreadings]
    cases rt
    · exact ⟨_, rfl⟩
    · exact ⟨_, rfl⟩
  · intro hnd
    have hlen : (drop_duplicates X).length ≠ X.length := by
      intro h
      exact hnd ((drop_duplicates_length_iff X).mp h)
    rw [load, if_pos (by omega)]

def ttDup : TTRow := ⟨"T1", tsOf 2020 2 15 0 0 0, 1⟩

/-- Witness for the amended C3: a distinct-pair table loads, a duplicated
table raises the validation error. -/
theorem c3_amended_duplicates_validation_witness :
    (∃ out, load [ttC2] none none false fsA = .ok out) ∧
    load [ttC2, ttDup] none none false fsA = .error .duplicateTargetTimes :=
  ⟨(c3_amended_duplicates_validation [ttC2] none none false fsA).1
      (by decide) (by decide) (by decide),
   (c3_amended_duplicates_validation [ttC2, ttDup] none none false fsA).2 (by decide)⟩

/-- Value of the per-turbine load, with errors collapsed (used to state how
`_load_readings` assembles its output; on the success path every component
is `ok`). -/
def extractDF : Except Err DF → DF
  | .ok df => df
  | .error _ => ⟨[], []⟩

theorem mapExcept_ok_map {α : Type} {f : α → Except Err DF} {l : List α} {ys : List DF}
    (h : mapExcept f l = .ok ys) : ys = l.map (fun a => extractDF (f a)) := by
  induction l generalizing ys with
  | nil =>
    rw [mapExcept] at h
    cases h
    rfl
  | cons a as ih =>
    rw [mapExcept] at h
    cases hfa : f a with
    | error e => rw [hfa] at h; cases h
    | ok b =>
      rw [hfa] at h
      cases hrec : mapExcept f as with
      | error e => rw [hrec] at h; cases h
      | ok bs =>
        rw [hrec] at h
        cases h
        rw [List.map_cons, ← ih hrec, hfa]
        rfl

/-- Claim C9: the readings table returned by `_load_readings` is the
concatenation of the per-entity blocks taken in strictly sorted
(lexicographic, duplicate-free) entity order over exactly the input's
entity ids, each block's rows tagged with its entity id. -/
theorem c9_sorted_entity_concat (X : List TTRow) (signals : Option (List String))
    (ws : Option Int) (fs : FS) (rs : DF)
    (h : load_readings X signals ws fs = .ok rs) :
    (sortedIds X).Sorted pyLeP ∧ (sortedIds X).Nodup ∧
    (∀ t, t ∈ sortedIds X ↔ t ∈ X.map TTRow.turbine_id) ∧
    rs.rows = ((sortedIds X).map (fun tid =>
      (extractDF (entityLoad (get_times X ws) signals fs tid)).rows)).flatten ∧
    (∀ tid r, r ∈ (extractDF (entityLoad (get_times X ws) signals fs tid)).rows →
      r.turbine_id = some tid) := by
  refine ⟨sorted_sortedIds X, nodup_sortedIds X, fun t => mem_sortedIds t X, ?_, ?_⟩
  · rw [load_readings] at h
    cases hm : mapExcept (entityLoad (get_times X ws) signals fs) (sortedIds X) with
    | error e => rw [hm] at h; cases h
    | ok dfs =>
      simp only [hm] at h
      cases hemp : dfs.isEmpty
      · simp only [hemp, Bool.false_eq_true, if_false] at h
        cases h
        show (List.map DF.rows dfs).flatten = _
        rw [mapExcept_ok_map hm, List.map_map]
        rfl
      · simp only [hemp, if_true] at h
        exact Except.noConfusion h
  · intro tid r hr
    rw [entityLoad] at hr
    cases hl : load_turbine_readings ((get_times X ws).filter
        (fun w => w.turbine_id == tid)) signals fs with
    | error e =>
      rw [hl] at hr
      cases hr
    | ok df =>
      rw [hl] at hr
      obtain ⟨pre, _, hpre⟩ := List.mem_map.mp hr
      rw [← hpre]

/-- Witness for C9 at a concrete input (one turbine with an empty
directory). -/
theorem c9_sorted_entity_concat_witness :
    (sortedIds [ttC2]).Nodup ∧
    (⟨canonicalColumns, []⟩ : DF).rows = ((sortedIds [ttC2]).map (fun tid =>
      (extractDF (entityLoad (get_times [ttC2] none) none fsA tid)).rows)).flatten := by
  have h := c9_sorted_entity_concat [ttC2] none none fsA ⟨canonicalColumns, []⟩ (by decide)
  exact ⟨h.2.1, h.2.2.2.1⟩

theorem le_foldr_max (l : List Nat) (x : Nat) (hx : x ∈ l) :
    x ≤ l.foldr Nat.max 0 := by
  induction l with
  | nil => cases hx
  | cons a as ih =>
    rcases List.mem_cons.mp hx with rfl | hx'
    · exact Nat.le_max_left _ _
    · exact Nat.le_trans (ih hx') (Nat.le_max_right _ _)

theorem lookupH_mem_keys {h : Heap} {r : Nat} {t : TTable}
    (hl : lookupH h r = some t) : r ∈ h.map Prod.fst := by
  rw [lookupH] at hl
  cases hf : h.find? (fun e => e.1 == r) with
  | none => rw [hf] at hl; cases hl
  | some e =>
    have hmem := List.mem_of_find?_eq_some hf
    have hkey : e.1 = r := by
      have := List.find?_some hf
      exact beq_iff_eq.mp this
    exact hkey ▸ List.mem_map.mpr ⟨e, hmem, rfl⟩

theorem freshRef_ne {h : Heap} {r : Nat} (hr : r ∈ h.map Prod.fst) :
    r ≠ freshRef h := by
  have := le_foldr_max (h.map Prod.fst) r hr
  rw [freshRef]
  omega

theorem find?_filter_ne (h : Heap) (r r' : Nat) (hne : r' ≠ r) :
    (h.filter (fun e => decide (e.1 ≠ r))).find? (fun e => e.1 == r') =
      h.find? (fun e => e.1 == r') := by
  induction h with
  | nil => rfl
  | cons e es ih =>
    by_cases he : e.1 = r
    · have h1 : (decide (e.1 ≠ r)) = false := by simp [he]
      have h2 : (e.1 == r') = false := by
        rw [beq_eq_false_iff_ne]
        rw [he]
        exact fun hh => hne hh.symm
      rw [List.filter_cons, h1, if_neg (by simp), List.find?_cons, h2, ih]
    · have h1 : (decide (e.1 ≠ r)) = true := by simp [he]
      rw [List.filter_cons, h1, if_pos rfl, List.find?_cons, List.find?_cons]
      cases hk : e.1 == r'
      · exact ih
      · rfl

theorem lookupH_setH_ne (h : Heap) (r r' : Nat) (t : TTable) (hne : r' ≠ r) :
    lookupH (setH h r t) r' = lookupH h r' := by
  rw [lookupH, setH, List.find?_cons]
  have hk : (r == r') = false := by
    rw [beq_eq_false_iff_ne]
    exact fun hh => hne hh.symm
  rw [hk]
  show ((h.filter (fun e => decide (e.1 ≠ r))).find? (fun e => e.1 == r')).map (·.2) = _
  rw [find?_filter_ne h r r' hne]
  rfl

/-- Claim C10: the caller-visible `target_times` table is unchanged by
`load` — the copy, cutoff parsing, duplicate validation and the `pop` of the
target column all act on the freshly allocated internal reference, never on
the caller's. -/
theorem c10_caller_table_preserved (h : Heap) (ref : Nat)
    (signals : Option (List String)) (ws : Option Int) (rt : Bool) (fs : FS)
    (t0 : TTable) (h0 : lookupH h ref = some t0) :
    lookupH (loadH h ref signals ws rt fs).2 ref = some t0 := by
  have hne : ref ≠ freshRef h := freshRef_ne (lookupH_mem_keys h0)
  have l2 : ∀ t t', lookupH (setH (setH h (freshRef h) t) (freshRef h) t') ref = some t0 := by
    intro t t'
    rw [lookupH_setH_ne _ _ _ _ hne, lookupH_setH_ne _ _ _ _ hne]
    exact h0
  have l3 : ∀ t t' t'',
      lookupH (setH (setH (setH h (freshRef h) t) (freshRef h) t') (freshRef h) t'') ref = some t0 := by
    intro t t' t''
    rw [lookupH_setH_ne _ _ _ _ hne]
    exact l2 t t'
  simp only [loadH, h0]
  split
  · exact l2 _ _
  · split
    · exact l2 _ _
    · split
      · split
        · exact l2 _ _
        · exact l3 _ _ _
      · exact l2 _ _

/-- Witness for C10 at a concrete heap. -/
theorem c10_caller_table_preserved_witness :
    lookupH (loadH [(0, t0c)] 0 none (some (30 * 86400)) true fsC2).2 0 = some t0c :=
  c10_caller_table_preserved [(0, t0c)] 0 none (some (30 * 86400)) true fsC2 t0c (by decide)
